import Mathlib

/-!
Shallow embedding of the ouroboros cyclic deque
(src/src/ouroboros/cyclic_deque.hpp, namespace ouroboros).

The backing region (the C++ `container`, a `pointer_range` or `std::vector`)
is modelled as a `List α`; a physical position (a C++ iterator/pointer into
the region) is modelled as a signed offset (`Int`) from `buf.begin()`, so
`buf.begin()` is position `0` and `buf.end()` is position `buf.length`.
Signed offsets are needed to be faithful to pointer arithmetic: the first
`resize` variant can compute a position before `buf.begin()`.

The file embeds both copies of `cyclic_deque_impl` found in the source: the
two differ only in `resize` (the owning variant adds `capacity()` before
wrapping when the signed delta is negative), so one state type carries both
`resize` (first variant, lines 269-275) and `resize'` (owning variant,
lines 992-1013).
-/

namespace Ouroboros

namespace internal

/-- Embedding of `internal::wrap_cycle`: wrap `index` from the expected input
range `[start...finish+(finish-start))` between `[start...finish)`.
The C++ test `index >= finish` is `finish ≤ index`. -/
def wrap_cycle (index start finish : Int) : Int :=
  if finish ≤ index then index - finish + start else index

/-- Embedding of `internal::inc_cycle`: increment `index` within the cyclic
range `[start...finish)`. -/
def inc_cycle (index start finish : Int) : Int :=
  if index + 1 = finish then start else index + 1

/-- Embedding of `internal::dec_cycle`: decrement `index` within the cyclic
range `[start...finish)`. -/
def dec_cycle (index start finish : Int) : Int :=
  if index = start then finish - 1 else index - 1

/-- Embedding of `std::copy(xs.begin(), xs.end(), buf.begin() + p)`: write the
elements of `xs` into `buf` at successive positions starting at `p`. -/
def copy (buf : List α) (p : Nat) (xs : List α) : List α :=
  match xs with
  | [] => buf
  | x :: t => copy (buf.set p x) (p + 1) t

end internal

/-- Embedding of the state of `internal::cyclic_deque_data` /
`internal::cyclic_deque_impl`: the backing buffer plus the three bookkeeping
fields `deq_start`, `deq_finish` (physical positions, i.e. signed offsets
from `buf.begin()`) and `deq_size`. -/
structure cyclic_deque_impl (α : Type) where
  buf : List α
  deq_start : Int
  deq_finish : Int
  deq_size : Nat
deriving Repr, DecidableEq

namespace cyclic_deque_impl

variable {α : Type}

/-- `capacity()`: `buf.end() - buf.begin()`, i.e. the length of the region. -/
def capacity (c : cyclic_deque_impl α) : Nat := c.buf.length

/-- `size()`. -/
def size (c : cyclic_deque_impl α) : Nat := c.deq_size

/-- `available()`: `capacity() - size()`. -/
def available (c : cyclic_deque_impl α) : Nat := c.capacity - c.size

/-- `empty()`. -/
def empty (c : cyclic_deque_impl α) : Bool := c.deq_size == 0

/-- `full()`. -/
def full (c : cyclic_deque_impl α) : Bool := c.deq_size == c.capacity

/-- Member `wrap_cycle(iterator)`: wrap within `[buf.begin()...buf.end())`,
i.e. within positions `[0...capacity)`. -/
def wrap_cycle (c : cyclic_deque_impl α) (index : Int) : Int :=
  internal.wrap_cycle index 0 (c.capacity : Int)

/-- Member `inner_to_outer(i)`: `wrap_cycle(deq_start + i)`. -/
def inner_to_outer (c : cyclic_deque_impl α) (i : Int) : Int :=
  c.wrap_cycle (c.deq_start + i)

/-- Member `inc_cycle(iterator)`. -/
def inc_cycle (c : cyclic_deque_impl α) (index : Int) : Int :=
  internal.inc_cycle index 0 (c.capacity : Int)

/-- Member `dec_cycle(iterator)`. -/
def dec_cycle (c : cyclic_deque_impl α) (index : Int) : Int :=
  internal.dec_cycle index 0 (c.capacity : Int)

/-- Dereference a physical position: `*(buf.begin() + p)`. Only positions in
`[0, capacity)` are ever dereferenced by the embedded operations. -/
def readPos [Inhabited α] (c : cyclic_deque_impl α) (p : Int) : α :=
  c.buf.getD p.toNat default

/-- Assign through a physical position: `*(buf.begin() + p) = v`. -/
def writePos (c : cyclic_deque_impl α) (p : Int) (v : α) : cyclic_deque_impl α :=
  { c with buf := c.buf.set p.toNat v }

/-- `at(i)`: bounds-checked access, `i >= size()` reports `std::out_of_range`
(modelled as `none`); `at` is a `const` member, the state is untouched. -/
def at' [Inhabited α] (c : cyclic_deque_impl α) (i : Nat) : Option α :=
  if c.size ≤ i then none else some (c.readPos (c.inner_to_outer (i : Int)))

/-- `operator[](i)`: unchecked access through `inner_to_outer(i)`. -/
def getIdx [Inhabited α] (c : cyclic_deque_impl α) (i : Nat) : α :=
  c.readPos (c.inner_to_outer (i : Int))

/-- `front()`: `*deq_start`. -/
def front [Inhabited α] (c : cyclic_deque_impl α) : α := c.readPos c.deq_start

/-- `back()`: `*dec_cycle(deq_finish)`. -/
def back [Inhabited α] (c : cyclic_deque_impl α) : α :=
  c.readPos (c.dec_cycle c.deq_finish)

/-- `push_back(value)`: write `value` at `deq_finish`, then advance
`deq_finish` and increment `deq_size` (in this order in the source). -/
def push_back (c : cyclic_deque_impl α) (v : α) : cyclic_deque_impl α :=
  { c with
    buf := c.buf.set c.deq_finish.toNat v
    deq_finish := c.inc_cycle c.deq_finish
    deq_size := c.deq_size + 1 }

/-- State observed after the element assignment inside `push_back` throws:
`set_value` runs before any marker update, so `deq_start`, `deq_finish` and
`deq_size` still hold their old values, and the single target slot
`*deq_finish` may have been (partially) overwritten with some value `v`. -/
def push_back_throw (c : cyclic_deque_impl α) (v : α) : cyclic_deque_impl α :=
  c.writePos c.deq_finish v

/-- `pop_back()`: decrement `deq_finish` cyclically and decrement `deq_size`. -/
def pop_back (c : cyclic_deque_impl α) : cyclic_deque_impl α :=
  { c with
    deq_finish := c.dec_cycle c.deq_finish
    deq_size := c.deq_size - 1 }

/-- `push_front(value)`: write `value` at `dec_cycle(deq_start)`, then move
`deq_start` there and increment `deq_size`. -/
def push_front (c : cyclic_deque_impl α) (v : α) : cyclic_deque_impl α :=
  { c with
    buf := c.buf.set (c.dec_cycle c.deq_start).toNat v
    deq_start := c.dec_cycle c.deq_start
    deq_size := c.deq_size + 1 }

/-- State observed after the element assignment inside `push_front` throws:
markers untouched, only the slot `*dec_cycle(deq_start)` may have been
(partially) overwritten with some value `v`. -/
def push_front_throw (c : cyclic_deque_impl α) (v : α) : cyclic_deque_impl α :=
  c.writePos (c.dec_cycle c.deq_start) v

/-- `pop_front()`: increment `deq_start` cyclically and decrement `deq_size`. -/
def pop_front (c : cyclic_deque_impl α) : cyclic_deque_impl α :=
  { c with
    deq_start := c.inc_cycle c.deq_start
    deq_size := c.deq_size - 1 }

/-- `append_range(rg)`: copy `rg` after `deq_finish`, splitting the copy in
two when it would run past `buf.end()`; `size1 = buf.end() - deq_finish` is
the split point. `deq_finish` becomes the value returned by the last
`std::copy`, `deq_size` grows by the range length. -/
def append_range (c : cyclic_deque_impl α) (rg : List α) : cyclic_deque_impl α :=
  let rg_size : Int := (rg.length : Int)
  let size1 : Int := (c.capacity : Int) - c.deq_finish
  if rg_size ≤ size1 then
    { c with
      buf := internal.copy c.buf c.deq_finish.toNat rg
      deq_finish := c.deq_finish + rg_size
      deq_size := c.deq_size + rg.length }
  else
    { c with
      buf := internal.copy (internal.copy c.buf c.deq_finish.toNat
               (rg.take size1.toNat)) 0 (rg.drop size1.toNat)
      deq_finish := ((rg.drop size1.toNat).length : Int)
      deq_size := c.deq_size + rg.length }

/-- `prepend_range(rg)`: copy `rg` before `deq_start`, splitting in two when
it would run past `buf.begin()`. `dec_deq_start = dec_cycle(deq_start) + 1`
moves an unwrapped `deq_start` to `buf.end()` when it equals `buf.begin()`;
`size2 = dec_deq_start - buf.begin()` is the split point, and
`std::prev(rg.end(), size2)` splits the range at index `rg.length - size2`. -/
def prepend_range (c : cyclic_deque_impl α) (rg : List α) : cyclic_deque_impl α :=
  let rg_size : Int := (rg.length : Int)
  let dds : Int := c.dec_cycle c.deq_start + 1
  let size2 : Int := dds - 0
  if rg_size ≤ size2 then
    { c with
      buf := internal.copy c.buf (dds - rg_size).toNat rg
      deq_start := dds - rg_size
      deq_size := c.deq_size + rg.length }
  else
    { c with
      buf := internal.copy (internal.copy c.buf 0
               (rg.drop (rg.length - size2.toNat)))
               ((c.capacity : Int) - rg_size + size2).toNat
               (rg.take (rg.length - size2.toNat))
      deq_start := (c.capacity : Int) - rg_size + size2
      deq_size := c.deq_size + rg.length }

/-- `clear()`: reset both markers to `buf.begin()` and `deq_size` to `0`. -/
def clear (c : cyclic_deque_impl α) : cyclic_deque_impl α :=
  { c with deq_start := 0, deq_finish := 0, deq_size := 0 }

/-- `resize(n)`, first variant (non-owning `cyclic_deque_impl`, lines
269-275): `deq_finish = wrap_cycle(deq_finish + d)` for the signed delta
`d = n - deq_size`, then `deq_size = s + d` cast back to `size_type`. -/
def resize (c : cyclic_deque_impl α) (n : Nat) : cyclic_deque_impl α :=
  let s : Int := (c.deq_size : Int)
  let d : Int := (n : Int) - s
  { c with
    deq_finish := c.wrap_cycle (c.deq_finish + d)
    deq_size := (s + d).toNat }

/-- `resize(n)`, owning variant (lines 992-1013): when `d < 0` the negative
step is first shifted by `capacity()` so that the argument of `wrap_cycle`
stays in its accepted range. -/
def resize' (c : cyclic_deque_impl α) (n : Nat) : cyclic_deque_impl α :=
  let s : Int := (c.deq_size : Int)
  let d : Int := (n : Int) - s
  if d < 0 then
    { c with
      deq_finish := c.wrap_cycle (c.deq_finish + d + (c.capacity : Int))
      deq_size := (s + d).toNat }
  else
    { c with
      deq_finish := c.wrap_cycle (c.deq_finish + d)
      deq_size := (s + d).toNat }

/-- Constructor `cyclic_deque_data(container b)`: zero initial occupancy,
both markers at `buf.begin()`. The default constructor is `ofBuf []`. -/
def ofBuf (b : List α) : cyclic_deque_impl α := ⟨b, 0, 0, 0⟩

/-- Constructor `cyclic_deque_data(container b, size_type n)`: initial
occupancy `n` starting at `buf.begin()`, `deq_finish = wrap_cycle(deq_start + n)`. -/
def ofBufN (b : List α) (n : Nat) : cyclic_deque_impl α :=
  ⟨b, 0, internal.wrap_cycle ((0 : Int) + (n : Int)) 0 (b.length : Int), n⟩

/-- The four-field invariant from the specification: `count ≤ capacity`,
`deq_start` and `deq_finish` are valid physical positions inside
`[buf.begin(), buf.end())` (never the one-past-last position), and
`deq_finish` is the cyclic one-past-last position `wrap(start + count)` of
the logical window. (The logical element at index `i` *is read at*
`wrap(start + i)` definitionally, via `inner_to_outer`.) -/
def Inv (c : cyclic_deque_impl α) : Prop :=
  c.deq_size ≤ c.capacity ∧
  0 ≤ c.deq_start ∧ c.deq_start < (c.capacity : Int) ∧
  0 ≤ c.deq_finish ∧ c.deq_finish < (c.capacity : Int) ∧
  c.deq_finish = c.inner_to_outer (c.deq_size : Int)

instance (c : cyclic_deque_impl α) : Decidable (Inv c) := by
  unfold Inv inner_to_outer wrap_cycle internal.wrap_cycle
  exact inferInstance

/-- The logical contents `[cdeque[0], ..., cdeque[size()-1]]`. -/
def toList [Inhabited α] (c : cyclic_deque_impl α) : List α :=
  (List.range c.deq_size).map (fun i => c.getIdx i)

end cyclic_deque_impl

/-- Embedding of `internal::cyclic_deque_iterator`: a signed logical index;
the reference to the cyclic state is passed explicitly to the operations
that need it. -/
structure cyclic_deque_iterator where
  index : Int
deriving Repr, DecidableEq

namespace cyclic_deque_impl

/-- Iterator `operator*`: resolve `inner_to_outer(index_)` at access time. -/
def iter_star [Inhabited α] (c : cyclic_deque_impl α)
    (it : cyclic_deque_iterator) : α :=
  c.readPos (c.inner_to_outer it.index)

/-- Iterator `operator+` with a signed offset. -/
def iter_add (it : cyclic_deque_iterator) (n : Int) : cyclic_deque_iterator :=
  ⟨it.index + n⟩

/-- Difference of two iterators: `a.base() - b.base()`. -/
def iter_sub (a b : cyclic_deque_iterator) : Int := a.index - b.index

/-- `begin()`: logical index 0. -/
def begin (_c : cyclic_deque_impl α) : cyclic_deque_iterator := ⟨0⟩

/-- `end()`: logical index `size()`. -/
def end' (c : cyclic_deque_impl α) : cyclic_deque_iterator :=
  ⟨(c.deq_size : Int)⟩

/-- Forward traversal `begin()` to `end()`: element `i` is `*(begin() + i)`. -/
def ftraverse [Inhabited α] (c : cyclic_deque_impl α) : List α :=
  (List.range c.deq_size).map
    (fun i : Nat => c.iter_star (iter_add c.begin (i : Int)))

/-- Reverse traversal `rbegin()` to `rend()`: `std::reverse_iterator` built
from `end()`, so element `i` dereferences the iterator `end() - 1 - i`. -/
def rtraverse [Inhabited α] (c : cyclic_deque_impl α) : List α :=
  (List.range c.deq_size).map
    (fun i : Nat => c.iter_star (iter_add c.end' (-1 - (i : Int))))

end cyclic_deque_impl

/-! ## Helper lemmas about lists and the copy primitive -/

namespace internal

theorem copy_length {α : Type} (xs : List α) : ∀ (buf : List α) (p : Nat),
    (copy buf p xs).length = buf.length := by
  induction xs with
  | nil => intro buf p; rfl
  | cons x t ih => intro buf p; rw [copy, ih, List.length_set]

theorem getD_set_ne {α : Type} (l : List α) (p q : Nat) (v d : α) (h : p ≠ q) :
    (l.set p v).getD q d = l.getD q d := by
  simp [List.getD_eq_getElem?_getD, List.getElem?_set_ne h]

theorem getD_set_eq {α : Type} (l : List α) (p : Nat) (v d : α)
    (h : p < l.length) : (l.set p v).getD p d = v := by
  simp [List.getD_eq_getElem?_getD, List.getElem?_set_self h]

theorem copy_getD_outside {α : Type} (xs : List α) :
    ∀ (buf : List α) (p q : Nat) (d : α),
    (q < p ∨ p + xs.length ≤ q) → (copy buf p xs).getD q d = buf.getD q d := by
  induction xs with
  | nil => intro buf p q d _; rfl
  | cons x t ih =>
    intro buf p q d h
    rw [copy, ih (buf.set p x) (p + 1) q d
      (by rcases h with h | h; · exact Or.inl (by omega)
          · exact Or.inr (by simp only [List.length_cons] at h; omega))]
    exact getD_set_ne buf p q x d
      (by rcases h with h | h; · omega
          · simp only [List.length_cons] at h; omega)

theorem copy_getD_inside {α : Type} (xs : List α) :
    ∀ (buf : List α) (p j : Nat) (d : α),
    p + xs.length ≤ buf.length → j < xs.length →
    (copy buf p xs).getD (p + j) d = xs.getD j d := by
  induction xs with
  | nil => intro buf p j d _ hj; simp at hj
  | cons x t ih =>
    intro buf p j d hlen hj
    cases j with
    | zero =>
      rw [copy, copy_getD_outside t _ (p + 1) (p + 0) d (Or.inl (by omega))]
      simpa using getD_set_eq buf p x d
        (by simp only [List.length_cons] at hlen; omega)
    | succ j =>
      rw [copy, show p + (j + 1) = (p + 1) + j by omega,
        ih (buf.set p x) (p + 1) j d
          (by rw [List.length_set]; simp only [List.length_cons] at hlen; omega)
          (by simp only [List.length_cons] at hj; omega)]
      simp [List.getD_cons_succ]

theorem getD_take {α : Type} (l : List α) (m j : Nat) (d : α) (h : j < m) :
    (l.take m).getD j d = l.getD j d := by
  simp [List.getD_eq_getElem?_getD, List.getElem?_take_of_lt h]

theorem getD_drop {α : Type} (l : List α) (m j : Nat) (d : α) :
    (l.drop m).getD j d = l.getD (m + j) d := by
  simp [List.getD_eq_getElem?_getD, List.getElem?_drop]

theorem getD_map_range {β : Type} (f : Nat → β) (n k : Nat) (d : β)
    (h : k < n) : ((List.range n).map f).getD k d = f k := by
  simp [List.getD_eq_getElem?_getD, List.getElem?_map, List.getElem?_range h]

theorem range_map_getD {α : Type} (l : List α) (d : α) :
    (List.range l.length).map (fun i => l.getD i d) = l := by
  induction l with
  | nil => rfl
  | cons x t ih =>
    rw [List.length_cons, List.range_succ_eq_map, List.map_cons, List.map_map]
    have hc : ((fun i => (x :: t).getD i d) ∘ Nat.succ) =
        fun i => t.getD i d := by
      funext i; simp [List.getD_cons_succ]
    rw [hc, ih, List.getD_cons_zero]

theorem map_range_reverse {β : Type} (f : Nat → β) (n : Nat) :
    ((List.range n).map f).reverse =
      (List.range n).map (fun i => f (n - 1 - i)) := by
  induction n with
  | zero => rfl
  | succ n ih =>
    have rhs : (List.range (n + 1)).map (fun i => f (n + 1 - 1 - i)) =
        f n :: (List.range n).map (fun i => f (n - 1 - i)) := by
      rw [List.range_succ_eq_map, List.map_cons, List.map_map]
      have hc : ((fun i => f (n + 1 - 1 - i)) ∘ Nat.succ) =
          fun i => f (n - 1 - i) := by
        funext i
        show f (n + 1 - 1 - (i + 1)) = f (n - 1 - i)
        congr 1
        omega
      rw [hc]
      norm_num
    rw [rhs, List.range_succ, List.map_append, List.reverse_append, ih]
    simp

end internal

/-! ## Basic facts about the cyclic state -/

namespace cyclic_deque_impl

variable {α : Type}

theorem inner_to_outer_congr (c c' : cyclic_deque_impl α)
    (hlen : c'.buf.length = c.buf.length) (hst : c'.deq_start = c.deq_start)
    (i : Int) : c'.inner_to_outer i = c.inner_to_outer i := by
  simp [inner_to_outer, wrap_cycle, capacity, hlen, hst]

theorem wrap_cycle_bounds (c : cyclic_deque_impl α) (p : Int) (h0 : 0 ≤ p)
    (h2 : p < 2 * (c.capacity : Int)) :
    0 ≤ c.wrap_cycle p ∧ c.wrap_cycle p < (c.capacity : Int) := by
  simp only [wrap_cycle, internal.wrap_cycle]
  split_ifs <;> omega

theorem getIdx_congr [Inhabited α] (c c' : cyclic_deque_impl α)
    (hbuf : c'.buf = c.buf) (hst : c'.deq_start = c.deq_start) (i : Nat) :
    c'.getIdx i = c.getIdx i := by
  simp [getIdx, readPos, inner_to_outer, wrap_cycle, capacity, hbuf, hst]

/-! ## Claim C2: resize is a pure marker adjustment -/

theorem resize_buf (c : cyclic_deque_impl α) (n : Nat) :
    (c.resize n).buf = c.buf := rfl

theorem resize_start (c : cyclic_deque_impl α) (n : Nat) :
    (c.resize n).deq_start = c.deq_start := rfl

theorem resize_size (c : cyclic_deque_impl α) (n : Nat) :
    (c.resize n).size = n := by
  show ((c.deq_size : Int) + ((n : Int) - (c.deq_size : Int))).toNat = n
  omega

theorem resize'_buf (c : cyclic_deque_impl α) (n : Nat) :
    (c.resize' n).buf = c.buf := by
  simp only [resize']
  split <;> rfl

theorem resize'_start (c : cyclic_deque_impl α) (n : Nat) :
    (c.resize' n).deq_start = c.deq_start := by
  simp only [resize']
  split <;> rfl

theorem resize'_size (c : cyclic_deque_impl α) (n : Nat) :
    (c.resize' n).size = n := by
  simp only [resize', size]
  split <;>
    (show ((c.deq_size : Int) + ((n : Int) - (c.deq_size : Int))).toNat = n
     omega)

/-- C2: for every state and every `n ≤ capacity()`, `resize(n)` (in both
source variants) sets `size()` to `n`, leaves `deq_start` untouched, leaves
the contents of every slot of the backing region untouched (the whole buffer
is unchanged), and hence the element at each logical index
`i < min(old size, n)` is unchanged; the operation is a total function
(`noexcept` in the source: it never throws). Only `deq_finish` and
`deq_size` are adjusted. -/
theorem claim_C2_resize_frame [Inhabited α] (c : cyclic_deque_impl α)
    (n : Nat) (hn : n ≤ c.capacity) :
    (c.resize n).size = n ∧ (c.resize' n).size = n ∧
    (c.resize n).deq_start = c.deq_start ∧
    (c.resize' n).deq_start = c.deq_start ∧
    (c.resize n).buf = c.buf ∧ (c.resize' n).buf = c.buf ∧
    ∀ i : Nat, i < min c.deq_size n →
      (c.resize n).getIdx i = c.getIdx i ∧
      (c.resize' n).getIdx i = c.getIdx i := by
  refine ⟨resize_size c n, resize'_size c n, resize_start c n,
    resize'_start c n, resize_buf c n, resize'_buf c n, fun i _ => ⟨?_, ?_⟩⟩
  · exact getIdx_congr c (c.resize n) (resize_buf c n) (resize_start c n) i
  · exact getIdx_congr c (c.resize' n) (resize'_buf c n) (resize'_start c n) i

/-- Witness for C2 at a concrete wrapped state. -/
theorem claim_C2_resize_frame_witness :
    (2 : Nat) ≤ (⟨[10, 20, 30, 40, 50], 3, 2, 4⟩ :
      cyclic_deque_impl Nat).capacity ∧
    ((⟨[10, 20, 30, 40, 50], 3, 2, 4⟩ : cyclic_deque_impl Nat).resize 2).size
      = 2 ∧
    ((⟨[10, 20, 30, 40, 50], 3, 2, 4⟩ : cyclic_deque_impl Nat).resize' 2).size
      = 2 ∧
    ((⟨[10, 20, 30, 40, 50], 3, 2, 4⟩ :
      cyclic_deque_impl Nat).resize 2).getIdx 1 =
      (⟨[10, 20, 30, 40, 50], 3, 2, 4⟩ : cyclic_deque_impl Nat).getIdx 1 := by
  refine ⟨by decide, ?_, ?_, ?_⟩
  · exact (claim_C2_resize_frame _ 2 (by decide)).1
  · exact (claim_C2_resize_frame _ 2 (by decide)).2.1
  · exact ((claim_C2_resize_frame _ 2 (by decide)).2.2.2.2.2.2 1
      (by decide)).1

/-! ## Claim C3: the two resize variants are not extensionally equal -/

/-- C3 counterexample: a reachable invariant-satisfying full state with
`deq_start = 2` on a capacity-3 buffer. Shrinking to size 0 makes the first
variant wrap `deq_finish + d = 2 - 3 = -1`, which `wrap_cycle` leaves
untouched (it only folds positions at or above `buf.end()`), storing a
position *before* the buffer, while the owning variant stores position 2.
So the two embeddings of `resize` differ on this invariant state. -/
theorem claim_C3_counterexample :
    Inv (⟨[0, 0, 0], 2, 2, 3⟩ : cyclic_deque_impl Nat) ∧
    (0 : Nat) ≤ (⟨[0, 0, 0], 2, 2, 3⟩ : cyclic_deque_impl Nat).capacity ∧
    ((⟨[0, 0, 0], 2, 2, 3⟩ : cyclic_deque_impl Nat).resize 0).deq_finish
      = -1 ∧
    ((⟨[0, 0, 0], 2, 2, 3⟩ : cyclic_deque_impl Nat).resize' 0).deq_finish
      = 2 ∧
    ((⟨[0, 0, 0], 2, 2, 3⟩ : cyclic_deque_impl Nat).resize 0).deq_finish ≠
      ((⟨[0, 0, 0], 2, 2, 3⟩ : cyclic_deque_impl Nat).resize' 0).deq_finish
    := by decide

/-- C3 amended: the two resize implementations agree on every
invariant-satisfying state and target `n ≤ capacity()` for which the signed
sum `deq_finish + (n - size)` does not fall before `buf.begin()`; the
counterexample shows they differ when it does. -/
theorem claim_C3_amended (c : cyclic_deque_impl α) (n : Nat) (hInv : Inv c)
    (hn : n ≤ c.capacity)
    (hpos : 0 ≤ c.deq_finish + ((n : Int) - (c.deq_size : Int))) :
    c.resize n = c.resize' n := by
  obtain ⟨h1, h2, h3, h4, h5, h6⟩ := hInv
  simp only [resize, resize']
  split_ifs with hd
  · have hw : c.wrap_cycle (c.deq_finish + ((n : Int) - (c.deq_size : Int)))
        = c.wrap_cycle (c.deq_finish + ((n : Int) - (c.deq_size : Int))
            + (c.capacity : Int)) := by
      simp only [wrap_cycle, internal.wrap_cycle]
      split_ifs <;> omega
    rw [hw]
  · rfl

/-- Witness for the amended C3: shrinking from a state whose window does not
wrap, so `deq_finish + d` stays inside the buffer. -/
theorem claim_C3_amended_witness :
    Inv (⟨[0, 0, 0], 0, 2, 2⟩ : cyclic_deque_impl Nat) ∧
    (1 : Nat) ≤ (⟨[0, 0, 0], 0, 2, 2⟩ : cyclic_deque_impl Nat).capacity ∧
    (0 : Int) ≤ (⟨[0, 0, 0], 0, 2, 2⟩ :
      cyclic_deque_impl Nat).deq_finish + ((1 : Int) - (2 : Int)) ∧
    (⟨[0, 0, 0], 0, 2, 2⟩ : cyclic_deque_impl Nat).resize 1 =
      (⟨[0, 0, 0], 0, 2, 2⟩ : cyclic_deque_impl Nat).resize' 1 := by
  refine ⟨by decide, by decide, by decide, ?_⟩
  exact claim_C3_amended _ 1 (by decide) (by decide) (by decide)

/-! ## Claim C6: bounds-checked access -/

/-- C6: `at(i)` reports out-of-range exactly when `i ≥ size()` (modelled by
`none`); `at(size())` always reports out-of-range and `at(size()-1)` never
does on a non-empty state, returning the element at logical index
`size()-1`. `at` is a `const` member in the source, so the embedded state is
untouched by construction. -/
theorem claim_C6_at_bounds [Inhabited α] (c : cyclic_deque_impl α)
    (i : Nat) :
    (c.at' i = none ↔ c.size ≤ i) ∧
    c.at' c.size = none ∧
    (c.size ≠ 0 → c.at' (c.size - 1) =
      some (c.getIdx (c.size - 1))) := by
  refine ⟨?_, ?_, ?_⟩
  · unfold at'
    split_ifs with h
    · simp [h]
    · simp [h]
  · unfold at'
    simp
  · intro h
    unfold at' getIdx
    split_ifs with h2
    · omega
    · rfl

/-- Witness for C6 on a concrete non-empty state. -/
theorem claim_C6_at_bounds_witness :
    ((⟨[7, 8, 9], 1, 0, 2⟩ : cyclic_deque_impl Nat).size ≠ 0) ∧
    (⟨[7, 8, 9], 1, 0, 2⟩ : cyclic_deque_impl Nat).at' 2 = none ∧
    (⟨[7, 8, 9], 1, 0, 2⟩ : cyclic_deque_impl Nat).at' 1 = some 9 := by
  refine ⟨by decide, (claim_C6_at_bounds _ 2).2.1, ?_⟩
  have h := (claim_C6_at_bounds (⟨[7, 8, 9], 1, 0, 2⟩ :
    cyclic_deque_impl Nat) 1).2.2 (by decide)
  simpa using h

/-! ## Claim C8: construction with initial occupancy -/

/-- C8: constructing over a buffer of capacity `c` with initial occupancy
`n ≤ c` yields `size() == n`, `available() == capacity() - n` and
`full() == (n == capacity())`; a capacity-0 container (including the
default-constructed one, `ofBuf []`) is simultaneously `empty()` and
`full()`. -/
theorem claim_C8_initial_occupancy (b : List α) (n : Nat)
    (h : n ≤ b.length) :
    (ofBufN b n).capacity = b.length ∧
    (ofBufN b n).size = n ∧
    (ofBufN b n).available = b.length - n ∧
    ((ofBufN b n).full = true ↔ n = b.length) ∧
    ((ofBuf ([] : List α)).empty = true ∧
      (ofBuf ([] : List α)).full = true) ∧
    ∀ c : cyclic_deque_impl α, c.capacity = 0 → c.deq_size ≤ c.capacity →
      c.empty = true ∧ c.full = true := by
  refine ⟨rfl, rfl, rfl, ?_, ⟨rfl, rfl⟩, ?_⟩
  · simp [ofBufN, full, capacity, size]
  · intro c hc hsz
    have hlen : c.buf.length = 0 := hc
    rw [hc] at hsz
    constructor
    · simp only [empty, beq_iff_eq]
      omega
    · simp only [full, capacity, beq_iff_eq]
      omega

/-- Witness for C8: occupancy 2 over a capacity-3 buffer. -/
theorem claim_C8_initial_occupancy_witness :
    (2 : Nat) ≤ ([4, 5, 6] : List Nat).length ∧
    (ofBufN ([4, 5, 6] : List Nat) 2).size = 2 ∧
    (ofBufN ([4, 5, 6] : List Nat) 2).available = 1 ∧
    ((ofBufN ([4, 5, 6] : List Nat) 2).full = true ↔ 2 = 3) := by
  refine ⟨by decide, (claim_C8_initial_occupancy _ 2 (by decide)).2.1, ?_, ?_⟩
  · exact (claim_C8_initial_occupancy _ 2 (by decide)).2.2.1
  · exact (claim_C8_initial_occupancy ([4, 5, 6] : List Nat) 2
      (by decide)).2.2.2.1

/-! ## Claims C9 and C10: concrete push/pop scenarios -/

/-- C9: on a capacity-3 buffer, `push_back 1, 2, 3` (the third push wraps
`deq_finish` past the physical end back to position 0), then `pop_front()`
followed by `push_back(4)` (which writes value 4 into physical slot 0),
yields logical contents `[2, 3, 4]`. -/
theorem claim_C9_fifo_wraparound :
    ((((ofBuf [0, 0, 0]).push_back 1).push_back
      2).push_back 3 : cyclic_deque_impl Nat).deq_finish = 0 ∧
    (((((ofBuf [0, 0, 0]).push_back 1).push_back
      2).push_back 3).pop_front.push_back 4 :
        cyclic_deque_impl Nat).buf = [4, 2, 3] ∧
    (((((ofBuf [0, 0, 0]).push_back 1).push_back
      2).push_back 3).pop_front.push_back 4 :
        cyclic_deque_impl Nat).toList = [2, 3, 4] ∧
    (((((ofBuf [0, 0, 0]).push_back 1).push_back
      2).push_back 3).pop_front.push_back 4 :
        cyclic_deque_impl Nat).getIdx 0 = 2 ∧
    (((((ofBuf [0, 0, 0]).push_back 1).push_back
      2).push_back 3).pop_front.push_back 4 :
        cyclic_deque_impl Nat).getIdx 1 = 3 ∧
    (((((ofBuf [0, 0, 0]).push_back 1).push_back
      2).push_back 3).pop_front.push_back 4 :
        cyclic_deque_impl Nat).getIdx 2 = 4 := by decide

/-- C10: on a capacity-3 buffer, `push_front 1, 2, 3` yields
`front() == 3` and indexing `[0] == 3, [1] == 2, [2] == 1`; the very first
`push_front` wraps `deq_start` backwards from the physical start of the
buffer to its last slot (position 2). -/
theorem claim_C10_push_front_wraparound :
    ((ofBuf [0, 0, 0]).push_front 1 : cyclic_deque_impl Nat).deq_start
      = 2 ∧
    ((((ofBuf [0, 0, 0]).push_front 1).push_front
      2).push_front 3 : cyclic_deque_impl Nat).front = 3 ∧
    ((((ofBuf [0, 0, 0]).push_front 1).push_front
      2).push_front 3 : cyclic_deque_impl Nat).getIdx 0 = 3 ∧
    ((((ofBuf [0, 0, 0]).push_front 1).push_front
      2).push_front 3 : cyclic_deque_impl Nat).getIdx 1 = 2 ∧
    ((((ofBuf [0, 0, 0]).push_front 1).push_front
      2).push_front 3 : cyclic_deque_impl Nat).getIdx 2 = 1 ∧
    ((((ofBuf [0, 0, 0]).push_front 1).push_front
      2).push_front 3 : cyclic_deque_impl Nat).toList = [3, 2, 1]
    := by decide

/-! ## Disjointness of the logical window from the push target slots -/

theorem inner_bounds (c : cyclic_deque_impl α) (h2 : 0 ≤ c.deq_start)
    (h3 : c.deq_start < (c.capacity : Int)) (i : Nat) (hi : i ≤ c.capacity) :
    0 ≤ c.inner_to_outer (i : Int) ∧
      c.inner_to_outer (i : Int) < (c.capacity : Int) := by
  exact wrap_cycle_bounds c _ (by omega) (by omega)

theorem inner_ne_finish (c : cyclic_deque_impl α) (hInv : Inv c)
    (hlt : c.deq_size < c.capacity) (i : Nat) (hi : i < c.deq_size) :
    c.inner_to_outer (i : Int) ≠ c.deq_finish := by
  obtain ⟨h1, h2, h3, h4, h5, h6⟩ := hInv
  rw [h6]
  simp only [inner_to_outer, wrap_cycle, internal.wrap_cycle]
  split_ifs <;> omega

theorem inner_ne_dec_start (c : cyclic_deque_impl α) (hInv : Inv c)
    (hlt : c.deq_size < c.capacity) (i : Nat) (hi : i < c.deq_size) :
    c.inner_to_outer (i : Int) ≠ c.dec_cycle c.deq_start := by
  obtain ⟨h1, h2, h3, h4, h5, h6⟩ := hInv
  simp only [inner_to_outer, wrap_cycle, dec_cycle, internal.wrap_cycle,
    internal.dec_cycle]
  split_ifs <;> omega

/-! ## Claim C4: a throwing element assignment leaves the state intact -/

theorem full_false_lt (c : cyclic_deque_impl α) (hfull : c.full = false) :
    c.deq_size ≠ c.capacity := by
  simp only [full, beq_eq_false_iff_ne, ne_eq] at hfull
  exact hfull

/-- C4: on a non-full invariant state, if the element copy/move assignment
inside `push_back` (resp. `push_front`) throws, the observable state
afterwards — modelled by `push_back_throw`/`push_front_throw`, which
perform only the slot write the source executes before any marker update,
with an arbitrary partially-written value `v`/`w` — has exactly the old
`size()`, `capacity()`, `deq_start`, `deq_finish`, and every previously
valid logical element unchanged (same physical address `inner_to_outer i`
holding the same value); the single written slot lies outside the logical
window `[0, size())`. -/
theorem claim_C4_push_throw_state [Inhabited α] (c : cyclic_deque_impl α)
    (v w : α) (hInv : Inv c) (hfull : c.full = false) :
    ((c.push_back_throw v).size = c.size ∧
     (c.push_back_throw v).capacity = c.capacity ∧
     (c.push_back_throw v).deq_start = c.deq_start ∧
     (c.push_back_throw v).deq_finish = c.deq_finish ∧
     ∀ i : Nat, i < c.size →
       (c.push_back_throw v).inner_to_outer (i : Int) =
         c.inner_to_outer (i : Int) ∧
       (c.push_back_throw v).getIdx i = c.getIdx i ∧
       c.inner_to_outer (i : Int) ≠ c.deq_finish) ∧
    ((c.push_front_throw w).size = c.size ∧
     (c.push_front_throw w).capacity = c.capacity ∧
     (c.push_front_throw w).deq_start = c.deq_start ∧
     (c.push_front_throw w).deq_finish = c.deq_finish ∧
     ∀ i : Nat, i < c.size →
       (c.push_front_throw w).inner_to_outer (i : Int) =
         c.inner_to_outer (i : Int) ∧
       (c.push_front_throw w).getIdx i = c.getIdx i ∧
       c.inner_to_outer (i : Int) ≠ c.dec_cycle c.deq_start) := by
  have hlt : c.deq_size < c.capacity := by
    have := full_false_lt c hfull
    have h1 := hInv.1
    omega
  obtain ⟨h1, h2, h3, h4, h5, h6⟩ := hInv
  constructor
  · refine ⟨rfl, by simp [push_back_throw, writePos, capacity], rfl, rfl,
      fun i hi => ?_⟩
    have hi' : i < c.deq_size := hi
    have hio : (c.push_back_throw v).inner_to_outer (i : Int) =
        c.inner_to_outer (i : Int) :=
      inner_to_outer_congr c (c.push_back_throw v)
        (List.length_set c.buf c.deq_finish.toNat v) rfl (i : Int)
    have hne : c.inner_to_outer (i : Int) ≠ c.deq_finish :=
      inner_ne_finish c ⟨h1, h2, h3, h4, h5, h6⟩ hlt i hi'
    refine ⟨hio, ?_, hne⟩
    have hb := inner_bounds c h2 h3 i (by omega)
    have hne2 : c.deq_finish.toNat ≠ (c.inner_to_outer (i : Int)).toNat := by
      omega
    simp only [getIdx, readPos]
    rw [hio]
    simp only [push_back_throw, writePos]
    exact internal.getD_set_ne c.buf c.deq_finish.toNat
      (c.inner_to_outer (i : Int)).toNat v default hne2
  · refine ⟨rfl, by simp [push_front_throw, writePos, capacity], rfl, rfl,
      fun i hi => ?_⟩
    have hi' : i < c.deq_size := hi
    have hio : (c.push_front_throw w).inner_to_outer (i : Int) =
        c.inner_to_outer (i : Int) :=
      inner_to_outer_congr c (c.push_front_throw w)
        (List.length_set c.buf (c.dec_cycle c.deq_start).toNat w) rfl (i : Int)
    have hne : c.inner_to_outer (i : Int) ≠ c.dec_cycle c.deq_start :=
      inner_ne_dec_start c ⟨h1, h2, h3, h4, h5, h6⟩ hlt i hi'
    refine ⟨hio, ?_, hne⟩
    have hb := inner_bounds c h2 h3 i (by omega)
    have hdb : 0 ≤ c.dec_cycle c.deq_start ∧
        c.dec_cycle c.deq_start < (c.capacity : Int) := by
      simp only [dec_cycle, internal.dec_cycle]
      split_ifs <;> omega
    have hne2 : (c.dec_cycle c.deq_start).toNat ≠
        (c.inner_to_outer (i : Int)).toNat := by
      omega
    simp only [getIdx, readPos]
    rw [hio]
    simp only [push_front_throw, writePos]
    exact internal.getD_set_ne c.buf (c.dec_cycle c.deq_start).toNat
      (c.inner_to_outer (i : Int)).toNat w default hne2

/-- Witness for C4 on a concrete non-full wrapped state. -/
theorem claim_C4_push_throw_state_witness :
    Inv (⟨[1, 2, 3, 4], 3, 2, 3⟩ : cyclic_deque_impl Nat) ∧
    (⟨[1, 2, 3, 4], 3, 2, 3⟩ : cyclic_deque_impl Nat).full = false ∧
    ((⟨[1, 2, 3, 4], 3, 2, 3⟩ :
      cyclic_deque_impl Nat).push_back_throw 99).size = 3 ∧
    ((⟨[1, 2, 3, 4], 3, 2, 3⟩ :
      cyclic_deque_impl Nat).push_front_throw 98).getIdx 0 =
      (⟨[1, 2, 3, 4], 3, 2, 3⟩ : cyclic_deque_impl Nat).getIdx 0 := by
  refine ⟨by decide, by decide, ?_, ?_⟩
  · exact (claim_C4_push_throw_state _ 99 98 (by decide) (by decide)).1.1
  · exact ((claim_C4_push_throw_state
      (⟨[1, 2, 3, 4], 3, 2, 3⟩ : cyclic_deque_impl Nat) 99 98 (by decide)
      (by decide)).2.2.2.2.2 0 (by decide)).2.1

/-! ## Claim C7: iterators -/

/-- C7: `end() - begin() == size()`; dereferencing `begin() + i` resolves
through `inner_to_outer(i) = wrap(start + i)` at access time and equals the
element at logical index `i`; forward traversal visits exactly the logical
contents in order and reverse traversal (reverse iterators built from the
forward ones) visits them in reverse order. -/
theorem claim_C7_iteration [Inhabited α] (c : cyclic_deque_impl α) :
    iter_sub c.end' c.begin = (c.size : Int) ∧
    (∀ i : Nat, i < c.size →
      c.iter_star (iter_add c.begin (i : Int)) = c.getIdx i) ∧
    c.ftraverse = c.toList ∧
    c.rtraverse = c.toList.reverse := by
  refine ⟨?_, ?_, ?_, ?_⟩
  · simp [iter_sub, end', begin, size]
  · intro i _
    simp [iter_star, iter_add, begin, getIdx]
  · unfold ftraverse toList
    apply List.map_congr_left
    intro i _
    simp [iter_star, iter_add, begin, getIdx]
  · unfold rtraverse toList
    rw [internal.map_range_reverse]
    apply List.map_congr_left
    intro i hi
    rw [List.mem_range] at hi
    simp only [iter_star, iter_add, end', getIdx]
    have hidx : (c.deq_size : Int) + (-1 - (i : Int)) =
        ((c.deq_size - 1 - i : Nat) : Int) := by omega
    rw [hidx]

/-- Witness for C7 on a concrete wrapped state. -/
theorem claim_C7_iteration_witness :
    iter_sub (⟨[1, 2, 3, 4], 2, 1, 3⟩ :
      cyclic_deque_impl Nat).end' (⟨[1, 2, 3, 4], 2, 1, 3⟩ :
      cyclic_deque_impl Nat).begin = 3 ∧
    (⟨[1, 2, 3, 4], 2, 1, 3⟩ : cyclic_deque_impl Nat).ftraverse =
      (⟨[1, 2, 3, 4], 2, 1, 3⟩ : cyclic_deque_impl Nat).toList ∧
    (⟨[1, 2, 3, 4], 2, 1, 3⟩ : cyclic_deque_impl Nat).rtraverse =
      (⟨[1, 2, 3, 4], 2, 1, 3⟩ : cyclic_deque_impl Nat).toList.reverse ∧
    (⟨[1, 2, 3, 4], 2, 1, 3⟩ : cyclic_deque_impl Nat).toList = [3, 4, 1] := by
  refine ⟨(claim_C7_iteration _).1, (claim_C7_iteration _).2.2.1,
    (claim_C7_iteration (⟨[1, 2, 3, 4], 2, 1, 3⟩ :
      cyclic_deque_impl Nat)).2.2.2, by decide⟩

/-! ## Effect of a single push on invariant and logical contents -/

theorem push_back_capacity (c : cyclic_deque_impl α) (v : α) :
    (c.push_back v).capacity = c.capacity := by
  simp [push_back, capacity]

theorem push_front_capacity (c : cyclic_deque_impl α) (v : α) :
    (c.push_front v).capacity = c.capacity := by
  simp [push_front, capacity]

theorem push_back_inner (c : cyclic_deque_impl α) (v : α) (i : Int) :
    (c.push_back v).inner_to_outer i = c.inner_to_outer i :=
  inner_to_outer_congr c (c.push_back v)
    (List.length_set c.buf c.deq_finish.toNat v) rfl i

theorem push_back_Inv (c : cyclic_deque_impl α) (v : α) (hInv : Inv c)
    (hlt : c.deq_size < c.capacity) : Inv (c.push_back v) := by
  obtain ⟨h1, h2, h3, h4, h5, h6⟩ := hInv
  have hcap : (c.push_back v).capacity = c.capacity := push_back_capacity c v
  refine ⟨?_, h2, ?_, ?_, ?_, ?_⟩
  · show c.deq_size + 1 ≤ (c.push_back v).capacity
    rw [hcap]
    omega
  · show c.deq_start < ((c.push_back v).capacity : Int)
    rw [hcap]
    exact h3
  · show (0 : Int) ≤ c.inc_cycle c.deq_finish
    simp only [inc_cycle, internal.inc_cycle]
    split_ifs <;> omega
  · show c.inc_cycle c.deq_finish < ((c.push_back v).capacity : Int)
    rw [hcap]
    simp only [inc_cycle, internal.inc_cycle]
    split_ifs <;> omega
  · show c.inc_cycle c.deq_finish =
      (c.push_back v).inner_to_outer ((c.deq_size + 1 : Nat) : Int)
    rw [push_back_inner]
    rw [h6]
    simp only [inner_to_outer, wrap_cycle, internal.wrap_cycle, inc_cycle,
      internal.inc_cycle]
    split_ifs <;> omega

theorem push_back_toList [Inhabited α] (c : cyclic_deque_impl α) (v : α)
    (hInv : Inv c) (hlt : c.deq_size < c.capacity) :
    (c.push_back v).toList = c.toList ++ [v] := by
  obtain ⟨h1, h2, h3, h4, h5, h6⟩ := hInv
  have hcapl : c.capacity = c.buf.length := rfl
  show (List.range (c.deq_size + 1)).map (fun i => (c.push_back v).getIdx i)
      = c.toList ++ [v]
  rw [List.range_succ, List.map_append]
  congr 1
  · unfold toList
    apply List.map_congr_left
    intro i hi
    rw [List.mem_range] at hi
    have hio := push_back_inner c v (i : Int)
    have hb := inner_bounds c h2 h3 i (by omega)
    have hne : c.inner_to_outer (i : Int) ≠ c.deq_finish :=
      inner_ne_finish c ⟨h1, h2, h3, h4, h5, h6⟩ hlt i hi
    simp only [getIdx, readPos]
    rw [hio]
    show (c.buf.set c.deq_finish.toNat v).getD
      (c.inner_to_outer (i : Int)).toNat default =
      c.buf.getD (c.inner_to_outer (i : Int)).toNat default
    exact internal.getD_set_ne c.buf c.deq_finish.toNat
      (c.inner_to_outer (i : Int)).toNat v default (by omega)
  · simp only [List.map_cons, List.map_nil]
    have hio := push_back_inner c v ((c.deq_size : Nat) : Int)
    have hlast : (c.push_back v).getIdx c.deq_size = v := by
      simp only [getIdx, readPos]
      rw [hio, ← h6]
      show (c.buf.set c.deq_finish.toNat v).getD c.deq_finish.toNat default = v
      exact internal.getD_set_eq c.buf c.deq_finish.toNat v default (by omega)
    rw [hlast]

theorem push_front_Inv (c : cyclic_deque_impl α) (v : α) (hInv : Inv c)
    (hlt : c.deq_size < c.capacity) : Inv (c.push_front v) := by
  obtain ⟨h1, h2, h3, h4, h5, h6⟩ := hInv
  have hcap : (c.push_front v).capacity = c.capacity := push_front_capacity c v
  refine ⟨?_, ?_, ?_, ?_, ?_, ?_⟩
  · show c.deq_size + 1 ≤ (c.push_front v).capacity
    rw [hcap]
    omega
  · show (0 : Int) ≤ c.dec_cycle c.deq_start
    simp only [dec_cycle, internal.dec_cycle]
    split_ifs <;> omega
  · show c.dec_cycle c.deq_start < ((c.push_front v).capacity : Int)
    rw [hcap]
    simp only [dec_cycle, internal.dec_cycle]
    split_ifs <;> omega
  · exact h4
  · show c.deq_finish < ((c.push_front v).capacity : Int)
    rw [hcap]
    exact h5
  · show c.deq_finish =
      (c.push_front v).inner_to_outer ((c.deq_size + 1 : Nat) : Int)
    have hst : (c.push_front v).deq_start = c.dec_cycle c.deq_start := rfl
    simp only [inner_to_outer, wrap_cycle, internal.wrap_cycle, hst, hcap,
      dec_cycle, internal.dec_cycle]
    rw [h6] at *
    simp only [inner_to_outer, wrap_cycle, internal.wrap_cycle]
    split_ifs <;> omega

theorem push_front_toList [Inhabited α] (c : cyclic_deque_impl α) (v : α)
    (hInv : Inv c) (hlt : c.deq_size < c.capacity) :
    (c.push_front v).toList = v :: c.toList := by
  obtain ⟨h1, h2, h3, h4, h5, h6⟩ := hInv
  have hcap : (c.push_front v).capacity = c.capacity := push_front_capacity c v
  have hst : (c.push_front v).deq_start = c.dec_cycle c.deq_start := rfl
  have hdb : 0 ≤ c.dec_cycle c.deq_start ∧
      c.dec_cycle c.deq_start < (c.capacity : Int) := by
    simp only [dec_cycle, internal.dec_cycle]
    split_ifs <;> omega
  have hcapl : c.capacity = c.buf.length := rfl
  show (List.range (c.deq_size + 1)).map (fun i => (c.push_front v).getIdx i)
      = v :: c.toList
  rw [List.range_succ_eq_map, List.map_cons, List.map_map]
  congr 1
  · -- head element reads the freshly written slot dec_cycle(deq_start)
    have hi0 : (c.push_front v).inner_to_outer ((0 : Nat) : Int) =
        c.dec_cycle c.deq_start := by
      simp only [inner_to_outer, wrap_cycle, internal.wrap_cycle, hst, hcap]
      simp only [dec_cycle, internal.dec_cycle]
      split_ifs <;> omega
    simp only [getIdx, readPos]
    rw [hi0]
    show (c.buf.set (c.dec_cycle c.deq_start).toNat v).getD
      (c.dec_cycle c.deq_start).toNat default = v
    exact internal.getD_set_eq c.buf (c.dec_cycle c.deq_start).toNat v default
      (by omega)
  · unfold toList
    apply List.map_congr_left
    intro i hi
    rw [List.mem_range] at hi
    show (c.push_front v).getIdx (i + 1) = c.getIdx i
    have hisucc : (c.push_front v).inner_to_outer ((i + 1 : Nat) : Int) =
        c.inner_to_outer (i : Int) := by
      simp only [inner_to_outer, wrap_cycle, internal.wrap_cycle, hst, hcap]
      simp only [dec_cycle, internal.dec_cycle]
      split_ifs <;> omega
    have hb := inner_bounds c h2 h3 i (by omega)
    have hne : c.inner_to_outer (i : Int) ≠ c.dec_cycle c.deq_start :=
      inner_ne_dec_start c ⟨h1, h2, h3, h4, h5, h6⟩ hlt i hi
    simp only [getIdx, readPos]
    rw [hisucc]
    show (c.buf.set (c.dec_cycle c.deq_start).toNat v).getD
      (c.inner_to_outer (i : Int)).toNat default =
      c.buf.getD (c.inner_to_outer (i : Int)).toNat default
    exact internal.getD_set_ne c.buf (c.dec_cycle c.deq_start).toNat
      (c.inner_to_outer (i : Int)).toNat v default (by omega)

/-! ## Iterated pushes -/

theorem foldl_push_back [Inhabited α] (rg : List α) :
    ∀ c : cyclic_deque_impl α, Inv c →
    c.deq_size + rg.length ≤ c.capacity →
    Inv (rg.foldl push_back c) ∧
    (rg.foldl push_back c).deq_size = c.deq_size + rg.length ∧
    (rg.foldl push_back c).capacity = c.capacity ∧
    (rg.foldl push_back c).toList = c.toList ++ rg := by
  induction rg with
  | nil => intro c hInv _; exact ⟨hInv, by simp, rfl, by simp⟩
  | cons x t ih =>
    intro c hInv h
    simp only [List.length_cons] at h ⊢
    have hlt : c.deq_size < c.capacity := by omega
    have hInv' := push_back_Inv c x hInv hlt
    have hcap := push_back_capacity c x
    have hsz : (c.push_back x).deq_size = c.deq_size + 1 := rfl
    obtain ⟨i1, i2, i3, i4⟩ := ih (c.push_back x) hInv'
      (by rw [hsz, hcap]; omega)
    have hfold : (x :: t).foldl push_back c = t.foldl push_back (c.push_back x) :=
      rfl
    refine ⟨by rw [hfold]; exact i1, ?_, ?_, ?_⟩
    · rw [hfold, i2, hsz]
      omega
    · rw [hfold, i3, hcap]
    · rw [hfold, i4, push_back_toList c x hInv hlt]
      simp

theorem foldr_push_front [Inhabited α] (rg : List α) :
    ∀ c : cyclic_deque_impl α, Inv c →
    c.deq_size + rg.length ≤ c.capacity →
    Inv (List.foldr (fun x s => push_front s x) c rg) ∧
    (List.foldr (fun x s => push_front s x) c rg).deq_size =
      c.deq_size + rg.length ∧
    (List.foldr (fun x s => push_front s x) c rg).capacity = c.capacity ∧
    (List.foldr (fun x s => push_front s x) c rg).toList =
      rg ++ c.toList := by
  induction rg with
  | nil => intro c hInv _; exact ⟨hInv, by simp, rfl, by simp⟩
  | cons x t ih =>
    intro c hInv h
    simp only [List.length_cons] at h ⊢
    obtain ⟨i1, i2, i3, i4⟩ := ih c hInv (by omega)
    have hfold : List.foldr (fun x s => push_front s x) c (x :: t) =
        push_front (List.foldr (fun x s => push_front s x) c t) x := rfl
    have hlt : (List.foldr (fun x s => push_front s x) c t).deq_size <
        (List.foldr (fun x s => push_front s x) c t).capacity := by
      rw [i2, i3]
      omega
    refine ⟨?_, ?_, ?_, ?_⟩
    · rw [hfold]
      exact push_front_Inv _ x i1 hlt
    · rw [hfold]
      show (List.foldr (fun x s => push_front s x) c t).deq_size + 1 =
        c.deq_size + (t.length + 1)
      rw [i2]
      omega
    · rw [hfold]
      rw [push_front_capacity, i3]
    · rw [hfold, push_front_toList _ x i1 hlt, i4]
      rfl

/-! ## Bulk insertion: pointwise characterization -/

theorem toList_eq_of_getIdx [Inhabited α] (c : cyclic_deque_impl α)
    (l : List α) (hlen : c.deq_size = l.length)
    (h : ∀ k, k < l.length → c.getIdx k = l.getD k default) :
    c.toList = l := by
  unfold toList
  rw [hlen]
  calc (List.range l.length).map (fun i => c.getIdx i)
      = (List.range l.length).map (fun i => l.getD i default) := by
        apply List.map_congr_left
        intro i hi
        rw [List.mem_range] at hi
        exact h i hi
    _ = l := internal.range_map_getD l default

theorem toList_length [Inhabited α] (c : cyclic_deque_impl α) :
    c.toList.length = c.deq_size := by
  unfold toList
  rw [List.length_map, List.length_range]

theorem toList_getD [Inhabited α] (c : cyclic_deque_impl α) (k : Nat)
    (hk : k < c.deq_size) : c.toList.getD k default = c.getIdx k := by
  unfold toList
  exact internal.getD_map_range _ _ _ _ hk

theorem append_range_size (c : cyclic_deque_impl α) (rg : List α) :
    (c.append_range rg).deq_size = c.deq_size + rg.length := by
  simp only [append_range]
  split <;> rfl

theorem append_range_getIdx [Inhabited α] (c : cyclic_deque_impl α)
    (rg : List α) (hInv : Inv c)
    (h : c.deq_size + rg.length ≤ c.capacity) :
    ∀ k, k < c.deq_size + rg.length →
      (c.append_range rg).getIdx k =
        if k < c.deq_size then c.getIdx k
        else rg.getD (k - c.deq_size) default := by
  obtain ⟨buf, st, f, sz⟩ := c
  simp only [Inv, capacity, inner_to_outer, wrap_cycle, internal.wrap_cycle,
    size] at hInv
  obtain ⟨h1, h2, h3, h4, h5, h6⟩ := hInv
  simp only [capacity] at h
  intro k hk
  replace hk : k < sz + rg.length := hk
  simp only [append_range, capacity]
  by_cases hsplit : ((rg.length : Int) ≤ (buf.length : Int) - f)
  · -- single contiguous copy at deq_finish
    rw [if_pos hsplit]
    simp only [getIdx, readPos, inner_to_outer, wrap_cycle, capacity,
      internal.wrap_cycle, internal.copy_length, add_zero]
    by_cases hks : k < sz
    · rw [if_pos hks]
      have houtside : ((if (buf.length : Int) ≤ st + (k : Int)
          then st + (k : Int) - (buf.length : Int)
          else st + (k : Int)).toNat < f.toNat ∨
          f.toNat + rg.length ≤ (if (buf.length : Int) ≤ st + (k : Int)
          then st + (k : Int) - (buf.length : Int)
          else st + (k : Int)).toNat) := by
        split_ifs at h6 ⊢ <;> omega
      exact internal.copy_getD_outside rg buf f.toNat _ default houtside
    · rw [if_neg hks]
      have hj : k - sz < rg.length := by omega
      have hpos : (if (buf.length : Int) ≤ st + (k : Int)
          then st + (k : Int) - (buf.length : Int)
          else st + (k : Int)) = f + ((k - sz : Nat) : Int) := by
        split_ifs at h6 ⊢ <;> omega
      rw [hpos, show (f + ((k - sz : Nat) : Int)).toNat = f.toNat + (k - sz)
        from by omega]
      rw [internal.copy_getD_inside rg buf f.toNat (k - sz) default
        (by omega) hj]
  · -- split copy: tail of the free region, then the start of the buffer
    rw [if_neg hsplit]
    have hff : f = st + (sz : Int) ∧ st + (sz : Int) < (buf.length : Int) := by
      split_ifs at h6 <;> omega
    simp only [getIdx, readPos, inner_to_outer, wrap_cycle, capacity,
      internal.wrap_cycle, internal.copy_length, add_zero]
    have hs1 : ((buf.length : Int) - f).toNat = buf.length - f.toNat := by
      omega
    have hs1le : buf.length - f.toNat < rg.length := by omega
    have htake : (rg.take ((buf.length : Int) - f).toNat).length =
        buf.length - f.toNat := by
      rw [List.length_take]
      omega
    have hdrop : (rg.drop ((buf.length : Int) - f).toNat).length =
        rg.length - (buf.length - f.toNat) := by
      rw [List.length_drop]
      omega
    by_cases hks : k < sz
    · rw [if_pos hks]
      have hpos : (if (buf.length : Int) ≤ st + (k : Int)
          then st + (k : Int) - (buf.length : Int)
          else st + (k : Int)) = st + (k : Int) := by
        split_ifs <;> omega
      rw [hpos]
      rw [internal.copy_getD_outside _ _ 0 _ default
        (Or.inr (by rw [hdrop]; omega))]
      rw [internal.copy_getD_outside _ _ f.toNat _ default
        (Or.inl (by omega))]
    · rw [if_neg hks]
      by_cases hj1 : k - sz < buf.length - f.toNat
      · -- lands in the tail of the physical buffer
        have hpos : (if (buf.length : Int) ≤ st + (k : Int)
            then st + (k : Int) - (buf.length : Int)
            else st + (k : Int)) = f + ((k - sz : Nat) : Int) := by
          split_ifs <;> omega
        rw [hpos, show (f + ((k - sz : Nat) : Int)).toNat = f.toNat + (k - sz)
          from by omega]
        rw [internal.copy_getD_outside _ _ 0 _ default
          (Or.inr (by rw [hdrop]; omega))]
        rw [internal.copy_getD_inside _ buf f.toNat (k - sz) default
          (by rw [htake]; omega) (by rw [htake]; omega)]
        rw [internal.getD_take rg _ _ default (by omega)]
      · -- lands at the start of the physical buffer after wrapping
        have hpos : (if (buf.length : Int) ≤ st + (k : Int)
            then st + (k : Int) - (buf.length : Int)
            else st + (k : Int)) =
            ((k - sz - (buf.length - f.toNat) : Nat) : Int) := by
          split_ifs <;> omega
        rw [hpos]
        have hq : k - sz - (buf.length - f.toNat) <
            (rg.drop ((buf.length : Int) - f).toNat).length := by
          rw [hdrop]
          omega
        have hread := internal.copy_getD_inside
          (rg.drop ((buf.length : Int) - f).toNat)
          (internal.copy buf f.toNat (rg.take ((buf.length : Int) - f).toNat))
          0 (k - sz - (buf.length - f.toNat)) default
          (by rw [internal.copy_length, hdrop]; omega) hq
        rw [show (((k - sz - (buf.length - f.toNat) : Nat) : Int)).toNat =
          0 + (k - sz - (buf.length - f.toNat)) from by omega, hread]
        rw [internal.getD_drop rg _ _ default]
        congr 1
        omega

theorem append_range_toList [Inhabited α] (c : cyclic_deque_impl α)
    (rg : List α) (hInv : Inv c)
    (h : c.deq_size + rg.length ≤ c.capacity) :
    (c.append_range rg).toList = c.toList ++ rg := by
  apply toList_eq_of_getIdx
  · rw [append_range_size, List.length_append, toList_length]
  · intro k hk
    rw [List.length_append, toList_length] at hk
    rw [append_range_getIdx c rg hInv h k hk]
    split_ifs with hks
    · rw [List.getD_append _ _ default k (by rw [toList_length]; omega),
        toList_getD c k hks]
    · rw [List.getD_append_right _ _ default k
        (by rw [toList_length]; omega), toList_length]

theorem prepend_range_size (c : cyclic_deque_impl α) (rg : List α) :
    (c.prepend_range rg).deq_size = c.deq_size + rg.length := by
  simp only [prepend_range]
  split <;> rfl

theorem prepend_range_getIdx [Inhabited α] (c : cyclic_deque_impl α)
    (rg : List α) (hInv : Inv c)
    (h : c.deq_size + rg.length ≤ c.capacity) :
    ∀ k, k < c.deq_size + rg.length →
      (c.prepend_range rg).getIdx k =
        if k < rg.length then rg.getD k default
        else c.getIdx (k - rg.length) := by
  obtain ⟨buf, st, f, sz⟩ := c
  simp only [Inv, capacity, inner_to_outer, wrap_cycle, internal.wrap_cycle,
    size] at hInv
  obtain ⟨h1, h2, h3, h4, h5, h6⟩ := hInv
  simp only [capacity] at h
  intro k hk
  replace hk : k < sz + rg.length := hk
  simp only [prepend_range, capacity, dec_cycle, internal.dec_cycle]
  by_cases hst : st = (0 : Int)
  · rw [if_pos hst]
    simp only [Int.sub_add_cancel, sub_zero]
    by_cases hcond : ((rg.length : Int) ≤ (buf.length : Int))
    · rw [if_pos hcond]
      simp only [getIdx, readPos, inner_to_outer, wrap_cycle, capacity,
        internal.wrap_cycle, internal.copy_length, add_zero]
      by_cases hkn : k < rg.length
      · rw [if_pos hkn]
        have hP : (if (buf.length : Int) ≤
            (buf.length : Int) - (rg.length : Int) + (k : Int)
            then (buf.length : Int) - (rg.length : Int) + (k : Int) -
              (buf.length : Int)
            else (buf.length : Int) - (rg.length : Int) + (k : Int)) =
            (buf.length : Int) - (rg.length : Int) + (k : Int) := by
          split_ifs <;> omega
        rw [hP, show ((buf.length : Int) - (rg.length : Int) +
          (k : Int)).toNat =
          ((buf.length : Int) - (rg.length : Int)).toNat + k from by omega]
        exact internal.copy_getD_inside rg buf _ k default (by omega) hkn
      · rw [if_neg hkn]
        rw [show (if (buf.length : Int) ≤
            (buf.length : Int) - (rg.length : Int) + (k : Int)
            then (buf.length : Int) - (rg.length : Int) + (k : Int) -
              (buf.length : Int)
            else (buf.length : Int) - (rg.length : Int) + (k : Int)) =
            (if (buf.length : Int) ≤ st + ((k - rg.length : Nat) : Int)
            then st + ((k - rg.length : Nat) : Int) - (buf.length : Int)
            else st + ((k - rg.length : Nat) : Int)) from by
          split_ifs <;> omega]
        exact internal.copy_getD_outside rg buf _ _ default
          (by split_ifs <;> omega)
    · exact absurd (by omega) hcond
  · rw [if_neg hst]
    simp only [Int.sub_add_cancel, sub_zero]
    by_cases hcond : ((rg.length : Int) ≤ st)
    · rw [if_pos hcond]
      simp only [getIdx, readPos, inner_to_outer, wrap_cycle, capacity,
        internal.wrap_cycle, internal.copy_length, add_zero]
      by_cases hkn : k < rg.length
      · rw [if_pos hkn]
        have hP : (if (buf.length : Int) ≤
            st - (rg.length : Int) + (k : Int)
            then st - (rg.length : Int) + (k : Int) - (buf.length : Int)
            else st - (rg.length : Int) + (k : Int)) =
            st - (rg.length : Int) + (k : Int) := by
          split_ifs <;> omega
        rw [hP, show (st - (rg.length : Int) + (k : Int)).toNat =
          (st - (rg.length : Int)).toNat + k from by omega]
        exact internal.copy_getD_inside rg buf _ k default (by omega) hkn
      · rw [if_neg hkn]
        rw [show (if (buf.length : Int) ≤
            st - (rg.length : Int) + (k : Int)
            then st - (rg.length : Int) + (k : Int) - (buf.length : Int)
            else st - (rg.length : Int) + (k : Int)) =
            (if (buf.length : Int) ≤ st + ((k - rg.length : Nat) : Int)
            then st + ((k - rg.length : Nat) : Int) - (buf.length : Int)
            else st + ((k - rg.length : Nat) : Int)) from by
          split_ifs <;> omega]
        exact internal.copy_getD_outside rg buf _ _ default
          (by split_ifs <;> omega)
    · rw [if_neg hcond]
      simp only [getIdx, readPos, inner_to_outer, wrap_cycle, capacity,
        internal.wrap_cycle, internal.copy_length, add_zero]
      have htake : (rg.take (rg.length - st.toNat)).length =
          rg.length - st.toNat := by
        rw [List.length_take]
        omega
      have hdrop : (rg.drop (rg.length - st.toNat)).length = st.toNat := by
        rw [List.length_drop]
        omega
      by_cases hkn : k < rg.length
      · rw [if_pos hkn]
        by_cases hk1 : k < rg.length - st.toNat
        · have hP : (if (buf.length : Int) ≤
              (buf.length : Int) - (rg.length : Int) + st + (k : Int)
              then (buf.length : Int) - (rg.length : Int) + st + (k : Int) -
                (buf.length : Int)
              else (buf.length : Int) - (rg.length : Int) + st + (k : Int)) =
              (buf.length : Int) - (rg.length : Int) + st + (k : Int) := by
            split_ifs <;> omega
          rw [hP, show ((buf.length : Int) - (rg.length : Int) + st +
            (k : Int)).toNat =
            ((buf.length : Int) - (rg.length : Int) + st).toNat + k
            from by omega]
          rw [internal.copy_getD_inside (rg.take (rg.length - st.toNat))
            (internal.copy buf 0 (rg.drop (rg.length - st.toNat)))
            ((buf.length : Int) - (rg.length : Int) + st).toNat k default
            (by rw [internal.copy_length, htake]; omega)
            (by rw [htake]; omega)]
          exact internal.getD_take rg _ k default hk1
        · have hP : (if (buf.length : Int) ≤
              (buf.length : Int) - (rg.length : Int) + st + (k : Int)
              then (buf.length : Int) - (rg.length : Int) + st + (k : Int) -
                (buf.length : Int)
              else (buf.length : Int) - (rg.length : Int) + st + (k : Int)) =
              ((k - (rg.length - st.toNat) : Nat) : Int) := by
            split_ifs <;> omega
          rw [hP]
          rw [internal.copy_getD_outside (rg.take (rg.length - st.toNat))
            (internal.copy buf 0 (rg.drop (rg.length - st.toNat)))
            ((buf.length : Int) - (rg.length : Int) + st).toNat
            (((k - (rg.length - st.toNat) : Nat) : Int)).toNat default
            (Or.inl (by omega))]
          rw [show (((k - (rg.length - st.toNat) : Nat) : Int)).toNat =
            0 + (k - (rg.length - st.toNat)) from by omega]
          rw [internal.copy_getD_inside (rg.drop (rg.length - st.toNat))
            buf 0 (k - (rg.length - st.toNat)) default
            (by rw [hdrop]; omega) (by rw [hdrop]; omega)]
          rw [internal.getD_drop rg _ _ default]
          congr 1
          omega
      · rw [if_neg hkn]
        rw [show (if (buf.length : Int) ≤
            (buf.length : Int) - (rg.length : Int) + st + (k : Int)
            then (buf.length : Int) - (rg.length : Int) + st + (k : Int) -
              (buf.length : Int)
            else (buf.length : Int) - (rg.length : Int) + st + (k : Int)) =
            (if (buf.length : Int) ≤ st + ((k - rg.length : Nat) : Int)
            then st + ((k - rg.length : Nat) : Int) - (buf.length : Int)
            else st + ((k - rg.length : Nat) : Int)) from by
          split_ifs <;> omega]
        rw [internal.copy_getD_outside (rg.take (rg.length - st.toNat))
          (internal.copy buf 0 (rg.drop (rg.length - st.toNat)))
          ((buf.length : Int) - (rg.length : Int) + st).toNat
          (if (buf.length : Int) ≤ st + ((k - rg.length : Nat) : Int)
            then st + ((k - rg.length : Nat) : Int) - (buf.length : Int)
            else st + ((k - rg.length : Nat) : Int)).toNat default
          (by split_ifs <;> omega)]
        exact internal.copy_getD_outside (rg.drop (rg.length - st.toNat))
          buf 0 _ default (Or.inr (by rw [hdrop]; split_ifs <;> omega))

theorem prepend_range_toList [Inhabited α] (c : cyclic_deque_impl α)
    (rg : List α) (hInv : Inv c)
    (h : c.deq_size + rg.length ≤ c.capacity) :
    (c.prepend_range rg).toList = rg ++ c.toList := by
  apply toList_eq_of_getIdx
  · rw [prepend_range_size, List.length_append, toList_length]
    omega
  · intro k hk
    rw [List.length_append, toList_length] at hk
    rw [prepend_range_getIdx c rg hInv h k (by omega)]
    split_ifs with hks
    · rw [List.getD_append _ _ default k hks]
    · rw [List.getD_append_right _ _ default k (by omega)]
      rw [toList_getD c (k - rg.length) (by omega)]

/-! ## Claim C5: bulk insertion equals iterated pushes -/

/-- C5: for every invariant state and range `rg` with length at most
`available()`, `append_range(rg)` produces exactly the logical contents of
pushing each element of `rg` with `push_back` in order, and
`prepend_range(rg)` produces exactly the logical contents of pushing each
element of `rg` with `push_front` in reverse order (the `foldr`), including
when the copy straddles the physical buffer boundary and is split in two. -/
theorem claim_C5_bulk_equals_pushes [Inhabited α] (c : cyclic_deque_impl α)
    (rg : List α) (hInv : Inv c) (h : rg.length ≤ c.available) :
    (c.append_range rg).toList = (rg.foldl push_back c).toList ∧
    (c.append_range rg).deq_size = (rg.foldl push_back c).deq_size ∧
    (c.prepend_range rg).toList =
      (List.foldr (fun x s => push_front s x) c rg).toList ∧
    (c.prepend_range rg).deq_size =
      (List.foldr (fun x s => push_front s x) c rg).deq_size := by
  have h' : rg.length ≤ c.capacity - c.deq_size := h
  have hcap : c.deq_size + rg.length ≤ c.capacity := by
    have h1 := hInv.1
    omega
  obtain ⟨f1, f2, f3, f4⟩ := foldl_push_back rg c hInv hcap
  obtain ⟨g1, g2, g3, g4⟩ := foldr_push_front rg c hInv hcap
  refine ⟨?_, ?_, ?_, ?_⟩
  · rw [append_range_toList c rg hInv hcap, f4]
  · rw [append_range_size, f2]
  · rw [prepend_range_toList c rg hInv hcap, g4]
  · rw [prepend_range_size, g2]

/-- Witness for C5 on a state where both bulk copies straddle the physical
buffer boundary (capacity 5, `start = 1`, `finish = 3`, three inserted
elements split 2+1 at the back and 1+2 at the front). -/
theorem claim_C5_bulk_equals_pushes_witness :
    Inv (⟨[0, 0, 0, 0, 0], 1, 3, 2⟩ : cyclic_deque_impl Nat) ∧
    [7, 8, 9].length ≤
      (⟨[0, 0, 0, 0, 0], 1, 3, 2⟩ : cyclic_deque_impl Nat).available ∧
    ((⟨[0, 0, 0, 0, 0], 1, 3, 2⟩ :
      cyclic_deque_impl Nat).append_range [7, 8, 9]).toList =
      ([7, 8, 9].foldl push_back
        (⟨[0, 0, 0, 0, 0], 1, 3, 2⟩ : cyclic_deque_impl Nat)).toList ∧
    ((⟨[0, 0, 0, 0, 0], 1, 3, 2⟩ :
      cyclic_deque_impl Nat).prepend_range [7, 8, 9]).toList =
      (List.foldr (fun x s => push_front s x)
        (⟨[0, 0, 0, 0, 0], 1, 3, 2⟩ : cyclic_deque_impl Nat)
        [7, 8, 9]).toList := by
  refine ⟨by decide, by decide, ?_, ?_⟩
  · exact (claim_C5_bulk_equals_pushes _ [7, 8, 9] (by decide)
      (by decide)).1
  · exact (claim_C5_bulk_equals_pushes
      (⟨[0, 0, 0, 0, 0], 1, 3, 2⟩ : cyclic_deque_impl Nat) [7, 8, 9]
      (by decide) (by decide)).2.2.1

/-! ## Claim C1: the invariant is not preserved by every operation -/

/-- C1 does not hold of the code as written: two public operations, called
with their stated preconditions satisfied on reachable invariant states,
store a marker outside `[buf.begin(), buf.end())`.

First, `append_range` on a capacity-4 buffer starting from the reachable
state `start = finish = 2, size = 0` (two `push_back` then two `pop_front`)
with a 2-element range (length ≤ `available() = 4`): the non-split branch
computes `deq_finish = std::copy(...) = buf.end()`, storing the one-past-last
position, which the invariant forbids (`wrap` is never applied); a
subsequent `push_back` would write `*buf.end()`.

Second, the first (non-owning) `resize` variant on a reachable full
capacity-3 state with `start = finish = 2`: `resize(0)` computes
`wrap_cycle(deq_finish - 3) = buf.begin() - 1`, a position before the
buffer, because `wrap_cycle` only folds positions at or above `buf.end()`.
All remaining operations do preserve the invariant (`push_back_Inv`,
`push_front_Inv` above), so the claim fails only on these two. -/
theorem claim_C1_invariant_violation :
    (Inv ((((ofBuf [0, 0, 0, 0]).push_back 1).push_back
        2).pop_front.pop_front : cyclic_deque_impl Nat) ∧
      [5, 6].length ≤
        ((((ofBuf [0, 0, 0, 0]).push_back 1).push_back
          2).pop_front.pop_front : cyclic_deque_impl Nat).available ∧
      (((((ofBuf [0, 0, 0, 0]).push_back 1).push_back
        2).pop_front.pop_front : cyclic_deque_impl Nat).append_range
          [5, 6]).deq_finish =
        (((((ofBuf [0, 0, 0, 0]).push_back 1).push_back
          2).pop_front.pop_front : cyclic_deque_impl Nat).append_range
            [5, 6]).capacity ∧
      ¬ Inv (((((ofBuf [0, 0, 0, 0]).push_back 1).push_back
        2).pop_front.pop_front : cyclic_deque_impl Nat).append_range
          [5, 6])) ∧
    (Inv (((((((ofBuf [0, 0, 0]).push_back 1).push_back 2).push_back
        3).pop_front.pop_front.push_back 4).push_back 5 :
        cyclic_deque_impl Nat)) ∧
      ((((((((ofBuf [0, 0, 0]).push_back 1).push_back 2).push_back
        3).pop_front.pop_front.push_back 4).push_back 5 :
        cyclic_deque_impl Nat)).resize 0).deq_finish = -1 ∧
      ¬ Inv ((((((((ofBuf [0, 0, 0]).push_back 1).push_back 2).push_back
        3).pop_front.pop_front.push_back 4).push_back 5 :
        cyclic_deque_impl Nat)).resize 0)) := by decide

end cyclic_deque_impl

end Ouroboros
